import Mathlib

/-!
Verification development for the WhatsApp chat-export parser
(`src/lib/chatParser.ts`) and the archive-extraction helper
(`src/lib/fileUtils.ts`).

Strings are modelled as `List Char`.  The two JavaScript regular
expressions of the parser are modelled character by character, with the
backtracking order of the JS engine made explicit where it matters
(the lazy sender group `(.+?)` and the optional whitespace groups).
`Date` values are modelled by the tuple of arguments passed to the
`new Date(year, month, day, hour, minute, second)` constructor.
-/

namespace Mimic

/-- JavaScript whitespace (`\s` and `String.prototype.trim`):
tab, LF, VT, FF, CR, space, NBSP, OGHAM, U+2000–U+200A, LS, PS,
NNBSP, MMSP, IDEOGRAPHIC SPACE, BOM. -/
def isJsWs (c : Char) : Bool :=
  let n := c.toNat
  n = 9 || n = 10 || n = 11 || n = 12 || n = 13 || n = 32 ||
  n = 0xA0 || n = 0x1680 || (0x2000 ≤ n && n ≤ 0x200A) ||
  n = 0x2028 || n = 0x2029 || n = 0x202F || n = 0x205F || n = 0x3000 || n = 0xFEFF

/-- The invisible directional/formatting marks stripped by the parser:
`[‎‏‪-‮⁦-⁩]` (chatParser.ts lines 54, 74, 98). -/
def isInvisible (c : Char) : Bool :=
  let n := c.toNat
  n = 0x200E || n = 0x200F || (0x202A ≤ n && n ≤ 0x202E) || (0x2066 ≤ n && n ≤ 0x2069)

/-- The character class stripped inside `parseDate` (line 123): the invisible
marks together with U+202F (narrow no-break space). -/
def isInvisible202F (c : Char) : Bool := isInvisible c || c.toNat = 0x202F

/-- ASCII decimal digit, the JS regex class `\d`. -/
def isDigit (c : Char) : Bool := 48 ≤ c.toNat && c.toNat ≤ 57

/-- The JS regex `.` (without the `s` flag): any character except the four
line terminators LF, CR, LS, PS. -/
def dotChar (c : Char) : Bool :=
  let n := c.toNat
  !(n = 10 || n = 13 || n = 0x2028 || n = 0x2029)

/-- Drop leading JS whitespace. -/
def trimL (s : List Char) : List Char := s.dropWhile isJsWs

/-- Drop trailing JS whitespace. -/
def trimR (s : List Char) : List Char := (s.reverse.dropWhile isJsWs).reverse

/-- Model of `String.prototype.trim`. -/
def trim (s : List Char) : List Char := trimR (trimL s)

/-- Model of `chatText.split('\n')`: every string yields a non-empty list of
newline-free lines. -/
def splitLines : List Char → List (List Char)
  | [] => [[]]
  | c :: cs =>
    if c = '\n' then [] :: splitLines cs
    else
      match splitLines cs with
      | [] => [[c]]
      | l :: ls => (c :: l) :: ls

/-- Model of `parseInt` on a string of decimal digits. -/
def digitsToNat (ds : List Char) : Nat :=
  ds.foldl (fun acc c => 10 * acc + (c.toNat - 48)) 0

/-- Model of `line.replace(/^[‎...⁩]+/, '')` followed by the regex
match: the cleaned line handed to the header matcher (lines 50–54). -/
def cleanLine (l : List Char) : List Char := (trim l).dropWhile isInvisible

/-! ### Header regex

`/^\[(\d{1,2}\/\d{1,2}\/\d{4}),\s*(\d{1,2}:\d{2}:\d{2}\s*(?:AM|PM))\]\s*(.+?):\s*(.+)$/`
(line 58, no `i` flag). -/

/-- Captures of a successful header match. -/
structure HeaderCapture where
  dateStr : List Char
  timeStr : List Char
  sender : List Char
  text : List Char
  deriving DecidableEq, Repr

/-- Expect one fixed character. -/
def expectChar (c : Char) : List Char → Option (List Char)
  | x :: xs => if x = c then some xs else none
  | [] => none

/-- Greedy `\d{1,2}` whose follower is never a digit: the maximal leading
digit run must have length 1 or 2. -/
def digits12 (cs : List Char) : Option (List Char × List Char) :=
  let ds := cs.takeWhile isDigit
  if ds.length = 1 ∨ ds.length = 2 then some (ds, cs.drop ds.length) else none

/-- Exactly `n` digits, `\d{n}`. -/
def digitsN (n : Nat) (cs : List Char) : Option (List Char × List Char) :=
  let ds := cs.take n
  if ds.length = n ∧ ds.all isDigit then some (ds, cs.drop n) else none

/-- The tail `\s*(.+)$` of the header regex on the text after the sender's
colon, with the engine's backtracking on the greedy `\s*`: try dropping `j`
whitespace characters, `j` from the maximal run length down to `0`, and accept
the first non-empty all-`.` remainder. -/
def spacesTextAux (rest : List Char) : Nat → Option (List Char)
  | 0 => if rest ≠ [] ∧ rest.all dotChar then some rest else none
  | j + 1 =>
    let t := rest.drop (j + 1)
    if t ≠ [] ∧ t.all dotChar then some t else spacesTextAux rest j

/-- Match `\s*(.+)$` against `rest`, returning the `(.+)` capture. -/
def matchSpacesText (rest : List Char) : Option (List Char) :=
  spacesTextAux rest (rest.takeWhile isJsWs).length

/-- The lazy sender group: `(.+?):\s*(.+)$`.  The sender grows one character
at a time; at each length, if the next character is a colon the engine tries
to finish with `\s*(.+)$`, and on failure the sender keeps growing. -/
def senderLoop (acc : List Char) : List Char → Option (List Char × List Char)
  | [] => none
  | c :: cs =>
    if dotChar c then
      match cs with
      | ':' :: cs2 =>
        (match matchSpacesText cs2 with
         | some t => some (acc ++ [c], t)
         | none => senderLoop (acc ++ [c]) cs)
      | _ => senderLoop (acc ++ [c]) cs
    else none

/-- The segment `\s*(.+?):\s*(.+)$` after the closing bracket: the greedy
`\s*` first takes the whole leading whitespace run and backs off one
character at a time when the rest fails. -/
def wsSender (r : List Char) : Nat → Option (List Char × List Char)
  | 0 => senderLoop [] r
  | k + 1 =>
    match senderLoop [] (r.drop (k + 1)) with
    | some st => some st
    | none => wsSender r k

/-- Match everything after the `]` of the header regex. -/
def afterBracket (r : List Char) : Option (List Char × List Char) :=
  wsSender r (r.takeWhile isJsWs).length

/-- The bracketed head of the header regex,
`\[(\d{1,2}\/\d{1,2}\/\d{4}),\s*(\d{1,2}:\d{2}:\d{2}\s*(?:AM|PM))\]`,
returning the two captures and the remainder after `]`. -/
def matchAmPm : List Char → Option (Char × List Char)
  | 'A' :: 'M' :: r => some (('A' : Char), r)
  | 'P' :: 'M' :: r => some (('P' : Char), r)
  | _ => none

/-- The time part `(\d{1,2}:\d{2}:\d{2}\s*(?:AM|PM))\]` starting after the
comma's whitespace, returning the capture (which includes the interior
whitespace run) and the remainder after `]`. -/
def matchTimePart (r8 : List Char) : Option (List Char × List Char) :=
  match digits12 r8 with
  | none => none
  | some (hh, r9) =>
    match expectChar ':' r9 with
    | none => none
    | some r10 =>
      match digitsN 2 r10 with
      | none => none
      | some (mm, r11) =>
        match expectChar ':' r11 with
        | none => none
        | some r12 =>
          match digitsN 2 r12 with
          | none => none
          | some (ss, r13) =>
            match matchAmPm (r13.drop (r13.takeWhile isJsWs).length) with
            | none => none
            | some (p, r15) =>
              match expectChar ']' r15 with
              | none => none
              | some r16 =>
                some (hh ++ ':' :: mm ++ ':' :: ss ++ r13.takeWhile isJsWs ++ [p, 'M'], r16)

/-- The date part `\[(\d{1,2}\/\d{1,2}\/\d{4}),` returning the capture and
the remainder after the comma. -/
def matchDatePart (cs : List Char) : Option (List Char × List Char) :=
  match expectChar '[' cs with
  | none => none
  | some r1 =>
    match digits12 r1 with
    | none => none
    | some (d1, r2) =>
      match expectChar '/' r2 with
      | none => none
      | some r3 =>
        match digits12 r3 with
        | none => none
        | some (d2, r4) =>
          match expectChar '/' r4 with
          | none => none
          | some r5 =>
            match digitsN 4 r5 with
            | none => none
            | some (y4, r6) =>
              match expectChar ',' r6 with
              | none => none
              | some r7 => some (d1 ++ '/' :: d2 ++ '/' :: y4, r7)

def matchHdrHead (cs : List Char) : Option (List Char × List Char × List Char) :=
  match matchDatePart cs with
  | none => none
  | some (d, r7) =>
    match matchTimePart (r7.dropWhile isJsWs) with
    | none => none
    | some (t, rest) => some (d, t, rest)

/-- Full model of `cleanedLine.match(headerRegex)` (line 58). -/
def matchHeader (cs : List Char) : Option HeaderCapture :=
  match matchHdrHead cs with
  | none => none
  | some (d, t, rest) =>
    match afterBracket rest with
    | none => none
    | some (s, txt) => some ⟨d, t, s, txt⟩

/-! ### parseDate (lines 120–143) -/

/-- An AM/PM marker as canonicalised by `period?.toUpperCase()`. -/
inductive Period where
  | AM
  | PM
  deriving DecidableEq, Repr

/-- The tuple of arguments handed to `new Date(year, month, day, hour,
minute, second)` — the parser's timestamp value. -/
structure JSDate where
  year : Int
  month : Int
  day : Int
  hour : Int
  minute : Int
  second : Int
  deriving DecidableEq, Repr

/-- Lines 131–142 of `parseDate`: `parseInt` on each token, the 1-based to
0-based month shift, and the two sequential AM/PM hour adjustments. -/
def resolveDateTime (d m y h mi s : Nat) (p : Option Period) : JSDate :=
  let h1 : Int := if p = some Period.PM ∧ h ≠ 12 then (h : Int) + 12 else (h : Int)
  let h2 : Int := if p = some Period.AM ∧ h1 = 12 then 0 else h1
  ⟨(y : Int), (m : Int) - 1, (d : Int), h2, (mi : Int), (s : Int)⟩

/-- Model of `s.replace(',', '')`: a string argument replaces only the first
occurrence. -/
def removeFirstComma : List Char → List Char
  | [] => []
  | c :: cs => if c = ',' then cs else c :: removeFirstComma cs

/-- The tail `\s?(AM|PM)?$` of the date regex (with the `i` flag): nothing,
one whitespace, an AM/PM in any case, or one whitespace then an AM/PM. -/
def matchDateTail (rem : List Char) : Option (Option Period) :=
  match rem with
  | [] => some none
  | [c] => if isJsWs c then some none else none
  | [a, b] =>
    if a.toLower = 'a' ∧ b.toLower = 'm' then some (some Period.AM)
    else if a.toLower = 'p' ∧ b.toLower = 'm' then some (some Period.PM)
    else none
  | [c, a, b] =>
    if isJsWs c ∧ a.toLower = 'a' ∧ b.toLower = 'm' then some (some Period.AM)
    else if isJsWs c ∧ a.toLower = 'p' ∧ b.toLower = 'm' then some (some Period.PM)
    else none
  | _ => none

/-- The date regex
`/^(\d{1,2})\/(\d{1,2})\/(\d{4})\s+(\d{1,2}):(\d{2}):(\d{2})\s?(AM|PM)?$/i`
applied to the cleaned string, returning the numeric captures. -/
def matchDateTime (r6 : List Char) : Option (Nat × Nat × Nat × Option Period) :=
  match digits12 r6 with
  | none => none
  | some (h, r7) =>
    match expectChar ':' r7 with
    | none => none
    | some r8 =>
      match digitsN 2 r8 with
      | none => none
      | some (mi, r9) =>
        match expectChar ':' r9 with
        | none => none
        | some r10 =>
          match digitsN 2 r10 with
          | none => none
          | some (s, r11) =>
            match matchDateTail r11 with
            | none => none
            | some p => some (digitsToNat h, digitsToNat mi, digitsToNat s, p)

def matchDateDate (cs : List Char) : Option (Nat × Nat × Nat × List Char) :=
  match digits12 cs with
  | none => none
  | some (d, r1) =>
    match expectChar '/' r1 with
    | none => none
    | some r2 =>
      match digits12 r2 with
      | none => none
      | some (m, r3) =>
        match expectChar '/' r3 with
        | none => none
        | some r4 =>
          match digitsN 4 r4 with
          | none => none
          | some (y, r5) => some (digitsToNat d, digitsToNat m, digitsToNat y, r5)

def matchDateRegex (cs : List Char) : Option (Nat × Nat × Nat × Nat × Nat × Nat × Option Period) :=
  match matchDateDate cs with
  | none => none
  | some (d, m, y, r5) =>
    if (r5.takeWhile isJsWs).length = 0 then none
    else
      match matchDateTime (r5.drop (r5.takeWhile isJsWs).length) with
      | none => none
      | some (h, mi, s, p) => some (d, m, y, h, mi, s, p)

/-- Model of `parseDate` (lines 120–143); `none` models the thrown
`Unrecognized date format` error. -/
def parseDate (dateTimeStr : List Char) : Option JSDate :=
  let cleaned := trim (removeFirstComma (dateTimeStr.filter (fun c => !isInvisible202F c)))
  match matchDateRegex cleaned with
  | none => none
  | some (d, m, y, h, mi, s, p) => some (resolveDateTime d m y h mi s p)

/-! ### Encryption-notice filter (lines 16–24) -/

/-- Case-insensitive substring test, the model of `text.match(/pat/i)` for the
fixed ASCII notice patterns (the JS canonicalisation never folds a non-ASCII
character onto an ASCII one). -/
def containsCI (pat : List Char) (s : List Char) : Bool :=
  decide (pat <:+: s.map Char.toLower)

/-- Model of `isEncryptionWarning` with its three patterns. -/
def isEncryptionWarning (text : List Char) : Bool :=
  containsCI ("messages and calls are end-to-end encrypted".data) text ||
  containsCI ("end-to-end encrypted".data) text ||
  containsCI ("only people in this chat can read".data) text

/-! ### The message assembler (lines 26–118) -/

/-- Model of the `ParsedMessage` interface. -/
structure ParsedMessage where
  date : JSDate
  sender : List Char
  text : List Char
  deriving DecidableEq, Repr

/-- The date/time string rebuilt at line 68, `${dateStr} ${timeStr.trim()}`. -/
def dateTimeOf (cap : HeaderCapture) : List Char :=
  cap.dateStr ++ ' ' :: trim cap.timeStr

/-- The cleaned header text of line 74. -/
def cleanTextOf (cap : HeaderCapture) : List Char :=
  trim (cap.text.filter (fun c => !isInvisible c))

/-- The text stored at line 86: the cleaned text, or the raw trimmed capture
when cleaning left nothing. -/
def storedTextOf (cap : HeaderCapture) : List Char :=
  if cleanTextOf cap = [] then trim cap.text else cleanTextOf cap

/-- The loop body of `parseWhatsAppChat` (lines 39–106) for one line, acting
on the current open message and the emitted list. -/
def processLine (cur : Option ParsedMessage) (msgs : List ParsedMessage)
    (line : List Char) : Option ParsedMessage × List ParsedMessage :=
  if trim line = [] then (cur, msgs)
  else
    match matchHeader (cleanLine line) with
    | some cap =>
      match parseDate (dateTimeOf cap) with
      | some d =>
        if isEncryptionWarning (cleanTextOf cap) then (cur, msgs ++ cur.toList)
        else (some ⟨d, trim cap.sender, storedTextOf cap⟩, msgs ++ cur.toList)
      | none => (cur, msgs ++ cur.toList)
    | none =>
      match cur with
      | some m =>
        if cleanLine line ≠ [] then
          if trim ((cleanLine line).filter (fun c => !isInvisible c)) = [] then (some m, msgs)
          else (some { m with
            text := m.text ++ '\n' :: trim ((cleanLine line).filter (fun c => !isInvisible c)) },
            msgs)
        else (some m, msgs)
      | none => (none, msgs)

/-- The whole line loop as a fold. -/
def runLines (st : Option ParsedMessage × List ParsedMessage)
    (ls : List (List Char)) : Option ParsedMessage × List ParsedMessage :=
  ls.foldl (fun st line => processLine st.1 st.2 line) st

/-- The end-of-input flush (lines 108–113): emit the still-open message
unless its accumulated text is an encryption notice. -/
def flushState (st : Option ParsedMessage × List ParsedMessage) : List ParsedMessage :=
  match st.1 with
  | some m => if isEncryptionWarning m.text then st.2 else st.2 ++ [m]
  | none => st.2

/-- Model of `parseWhatsAppChat` (lines 26–118), including the early return
on empty input and the end-of-input flush with its notice check. -/
def parseWhatsAppChat (chatText : List Char) : List ParsedMessage :=
  if trim chatText = [] then []
  else flushState (runLines (none, []) (splitLines chatText))

/-- The message produced by a line when it matches the header grammar, its
date resolves, and its cleaned text is not a notice; `none` otherwise. -/
def headerMessage (l : List Char) : Option ParsedMessage :=
  match matchHeader (cleanLine l) with
  | none => none
  | some cap =>
    match parseDate (dateTimeOf cap) with
    | none => none
    | some d =>
      if isEncryptionWarning (cleanTextOf cap) then none
      else some ⟨d, trim cap.sender, storedTextOf cap⟩

/-- Decidable form of "this line opens a fresh message". -/
def goodHdr (l : List Char) : Bool := (headerMessage l).isSome

/-- One continuation step on the running text of the open message
(lines 95–101): append the normalized line when it is non-empty. -/
def contStep (t : List Char) (l : List Char) : List Char :=
  if trim ((cleanLine l).filter (fun c => !isInvisible c)) = [] then t
  else t ++ '\n' :: trim ((cleanLine l).filter (fun c => !isInvisible c))

/-- One step of the assembler restricted to good header lines: the new
message becomes current and the previous current message is emitted. -/
def stepG (st : Option ParsedMessage × List ParsedMessage) (m : ParsedMessage) :
    Option ParsedMessage × List ParsedMessage :=
  (some m, st.2 ++ st.1.toList)

/-- The invariant every stored message satisfies: sender and text are
JS-trimmed and the text is non-empty. -/
def PmOk (m : ParsedMessage) : Prop :=
  trim m.sender = m.sender ∧ trim m.text = m.text ∧ m.text ≠ []

/-! ### Sender directory (lines 149–152) -/

/-- UTF-16 code units of one character, the units JS strings are compared
by. -/
def utf16Char (c : Char) : List Nat :=
  if c.toNat < 0x10000 then [c.toNat]
  else [0xD800 + (c.toNat - 0x10000) / 0x400, 0xDC00 + (c.toNat - 0x10000) % 0x400]

/-- UTF-16 code units of a string. -/
def utf16 (s : List Char) : List Nat := (s.map utf16Char).flatten

/-- Lexicographic order on code-unit sequences. -/
def lexLe : List Nat → List Nat → Bool
  | [], _ => true
  | _ :: _, [] => false
  | a :: as, b :: bs => if a < b then true else if a = b then lexLe as bs else false

/-- The default `Array.prototype.sort` comparison on strings: lexicographic
on UTF-16 code units. -/
def senderLe (s t : List Char) : Bool := lexLe (utf16 s) (utf16 t)

/-- Model of `new Set(xs)` materialised by `Array.from`: first occurrences in
order. -/
def dedupFirst (l : List (List Char)) : List (List Char) :=
  l.foldl (fun acc s => if s ∈ acc then acc else acc ++ [s]) []

/-- Model of `extractSenders` (lines 149–152). -/
def extractSenders (msgs : List ParsedMessage) : List (List Char) :=
  List.insertionSort (fun a b => senderLe a b = true)
    (dedupFirst (msgs.map (fun m => m.sender)))

/-- Model of `filterBySender` (lines 157–159). -/
def filterBySender (msgs : List ParsedMessage) (sender : List Char) : List ParsedMessage :=
  msgs.filter (fun m => m.sender = sender)

/-! ### Archive extraction (`fileUtils.ts`, lines 24–74) -/

/-- The two error exits of `extractTxtFromZip`. -/
inductive ZipError where
  | noTextEntryFound
  | emptyExtractedContent
  deriving DecidableEq, Repr

/-- One archive entry as seen through JSZip: its key, its directory flag and
its decoded text. -/
structure ZipEntry where
  name : List Char
  dir : Bool
  content : List Char
  deriving DecidableEq, Repr

/-- JS `fileName.endsWith('.txt')` — an exact, case-sensitive suffix test. -/
def endsWithTxt (name : List Char) : Bool :=
  (".txt".data).isSuffixOf name

/-- Model of `extractTxtFromZip` (lines 24–74): filter the entries on the
case-sensitive `.txt` suffix and the directory flag, take the first survivor,
and fail on an empty archive hit list or empty decoded content. -/
def extractTxtFromZip (entries : List ZipEntry) : Except ZipError (List Char × List Char) :=
  match entries.filter (fun e => endsWithTxt e.name && !e.dir) with
  | [] => Except.error ZipError.noTextEntryFound
  | e :: _ =>
    if e.content.length = 0 then Except.error ZipError.emptyExtractedContent
    else Except.ok (e.content, e.name)

/-- What C4's spec sentence describes, written from the spec's words: first
entry whose name ends in `.txt`, matched case-insensitively, skipping
directories. -/
def extractTxtFromZipSpec (entries : List ZipEntry) : Except ZipError (List Char × List Char) :=
  match entries.find? (fun e => (".txt".data).isSuffixOf (e.name.map Char.toLower) && !e.dir) with
  | none => Except.error ZipError.noTextEntryFound
  | some e =>
    if e.content.length = 0 then Except.error ZipError.emptyExtractedContent
    else Except.ok (e.content, e.name)

/-! ## Lemmas about trimming and whitespace -/

lemma trim_nil : trim ([] : List Char) = [] := rfl

lemma dropWhile_head? {α : Type} {p : α → Bool} {l : List α} {c : α}
    (h : (l.dropWhile p).head? = some c) : p c = false := by
  induction l with
  | nil => simp at h
  | cons a l ih =>
    rw [List.dropWhile_cons] at h
    split at h
    · exact ih h
    · simp only [List.head?_cons, Option.some.injEq] at h
      rw [← h]
      simpa using ‹¬p a = true›

lemma trimL_suffix (s : List Char) : trimL s <:+ s := List.dropWhile_suffix _

lemma trimR_pre (s : List Char) : trimR s <+: s := by
  have h : (s.reverse.dropWhile isJsWs).reverse <+: s.reverse.reverse :=
    List.reverse_prefix.mpr (List.dropWhile_suffix _)
  rw [List.reverse_reverse] at h
  exact h

lemma trim_subset {s : List Char} {c : Char} (h : c ∈ trim s) : c ∈ s :=
  (trimL_suffix s).subset ((trimR_pre (trimL s)).subset h)

lemma trimL_eq_nil_iff {s : List Char} : trimL s = [] ↔ ∀ c ∈ s, isJsWs c = true := by
  rw [trimL]
  exact List.dropWhile_eq_nil_iff

lemma mem_trimL_ws {s : List Char} (h : ∀ c ∈ trimL s, isJsWs c = true) :
    ∀ c ∈ s, isJsWs c = true := by
  intro c hc
  have hsplit : s.takeWhile isJsWs ++ s.dropWhile isJsWs = s :=
    List.takeWhile_append_dropWhile isJsWs s
  rw [← hsplit] at hc
  rcases List.mem_append.mp hc with h1 | h2
  · exact List.mem_takeWhile_imp h1
  · exact h c h2

lemma trim_eq_nil_iff {s : List Char} : trim s = [] ↔ ∀ c ∈ s, isJsWs c = true := by
  constructor
  · intro h
    apply mem_trimL_ws
    intro c hc
    have h2 : (trimL s).reverse.dropWhile isJsWs = [] := by
      have : ((trimL s).reverse.dropWhile isJsWs).reverse = [] := h
      simpa using congrArg List.reverse this
    have := List.dropWhile_eq_nil_iff.mp h2
    exact this c (by simpa using hc)
  · intro h
    have h1 : trimL s = [] := trimL_eq_nil_iff.mpr h
    rw [trim, h1]
    rfl

lemma trim_ne_nil_of_mem {s : List Char} {c : Char} (hc : c ∈ s)
    (hw : isJsWs c = false) : trim s ≠ [] := by
  intro h
  have := trim_eq_nil_iff.mp h c hc
  simp [this] at hw

lemma head?_trim {s : List Char} {c : Char} (h : (trim s).head? = some c) :
    isJsWs c = false := by
  have hpre : trim s <+: trimL s := trimR_pre (trimL s)
  obtain ⟨t, ht⟩ := hpre
  have h2 : (trimL s).head? = some c := by
    rw [← ht]
    cases htr : trim s with
    | nil => rw [htr] at h; simp at h
    | cons a l => rw [htr] at h; simp at h; simp [htr, h]
  exact dropWhile_head? h2

lemma revHead?_trim {s : List Char} {c : Char} (h : (trim s).reverse.head? = some c) :
    isJsWs c = false := by
  have h2 : ((trimL s).reverse.dropWhile isJsWs).head? = some c := by
    have : (trim s).reverse = (trimL s).reverse.dropWhile isJsWs := by
      simp [trim, trimR]
    rwa [this] at h
  exact dropWhile_head? h2

lemma trimL_eq_self {s : List Char}
    (h : ∀ c, s.head? = some c → isJsWs c = false) : trimL s = s := by
  cases s with
  | nil => rfl
  | cons a t =>
    have := h a rfl
    simp [trimL, List.dropWhile_cons, this]

lemma trimR_eq_self {s : List Char}
    (h : ∀ c, s.reverse.head? = some c → isJsWs c = false) : trimR s = s := by
  cases hr : s.reverse with
  | nil =>
    have hs : s = [] := by simpa using congrArg List.reverse hr
    rw [hs]; rfl
  | cons a t =>
    have ha := h a (by rw [hr]; rfl)
    rw [trimR, hr, List.dropWhile_cons_of_neg (by simp [ha]), ← hr, List.reverse_reverse]

lemma trim_eq_self {s : List Char}
    (h1 : ∀ c, s.head? = some c → isJsWs c = false)
    (h2 : ∀ c, s.reverse.head? = some c → isJsWs c = false) : trim s = s := by
  rw [trim, trimL_eq_self h1, trimR_eq_self h2]

lemma trim_trim (s : List Char) : trim (trim s) = trim s :=
  trim_eq_self (fun _ h => head?_trim h) (fun _ h => revHead?_trim h)

lemma trim_append_mid {a b : List Char} (x : Char) (ha : trim a = a) (hna : a ≠ [])
    (hb : trim b = b) (hnb : b ≠ []) : trim (a ++ x :: b) = a ++ x :: b := by
  apply trim_eq_self
  · intro c h
    cases a with
    | nil => exact absurd rfl hna
    | cons a0 t =>
      simp at h
      subst h
      exact head?_trim (s := a0 :: t) (by rw [ha]; rfl)
  · intro c h
    cases hbr : b.reverse with
    | nil =>
      exact absurd (by simpa using congrArg List.reverse hbr) hnb
    | cons b0 t' =>
      rw [List.reverse_append, List.reverse_cons, hbr] at h
      simp at h
      subst h
      exact revHead?_trim (s := b) (by rw [hb, hbr]; rfl)

/-! ## Lemmas about splitLines -/

lemma splitLines_ne_nil (cs : List Char) : splitLines cs ≠ [] := by
  induction cs with
  | nil => simp [splitLines]
  | cons c cs ih =>
    rw [splitLines]
    split
    · simp
    · split
      · simp
      · simp

lemma mem_splitLines {cs : List Char} {l : List Char} {c : Char}
    (hl : l ∈ splitLines cs) (hc : c ∈ l) : c ∈ cs := by
  induction cs generalizing l with
  | nil =>
    simp [splitLines] at hl
    subst hl
    simp at hc
  | cons a cs ih =>
    rw [splitLines] at hl
    by_cases ha : a = '\n'
    · rw [if_pos ha] at hl
      rcases List.mem_cons.mp hl with h | h
      · subst h; simp at hc
      · exact List.mem_cons_of_mem _ (ih h hc)
    · rw [if_neg ha] at hl
      cases hsp : splitLines cs with
      | nil => exact absurd hsp (splitLines_ne_nil cs)
      | cons l0 ls =>
        rw [hsp] at hl
        rcases List.mem_cons.mp hl with h | h
        · subst h
          rcases List.mem_cons.mp hc with h2 | h2
          · subst h2; exact List.mem_cons_self _ _
          · exact List.mem_cons_of_mem _
              (ih (l := l0) (by rw [hsp]; exact List.mem_cons_self _ _) h2)
        · exact List.mem_cons_of_mem _
            (ih (l := l) (by rw [hsp]; exact List.mem_cons_of_mem _ h) hc)

lemma all_blank_of_trim_nil {cs : List Char} (h : trim cs = []) :
    ∀ l ∈ splitLines cs, trim l = [] := by
  intro l hl
  apply trim_eq_nil_iff.mpr
  intro c hc
  exact trim_eq_nil_iff.mp h c (mem_splitLines hl hc)

/-! ## Suffix lemmas for the header matcher -/

lemma expectChar_suffix {c : Char} {l r : List Char} (h : expectChar c l = some r) :
    r <:+ l := by
  cases l with
  | nil => simp [expectChar] at h
  | cons x xs =>
    rw [expectChar] at h
    split at h
    · cases h; exact List.suffix_cons _ _
    · cases h

lemma digits12_suffix {cs ds r : List Char} (h : digits12 cs = some (ds, r)) :
    r <:+ cs := by
  rw [digits12] at h
  split at h
  · cases h; exact List.drop_suffix _ _
  · cases h

lemma digitsN_suffix {n : Nat} {cs ds r : List Char} (h : digitsN n cs = some (ds, r)) :
    r <:+ cs := by
  rw [digitsN] at h
  split at h
  · cases h; exact List.drop_suffix _ _
  · cases h

lemma matchAmPm_suffix {l r : List Char} {p : Char} (h : matchAmPm l = some (p, r)) :
    r <:+ l := by
  unfold matchAmPm at h
  split at h
  · cases h; exact ⟨['A', 'M'], rfl⟩
  · cases h; exact ⟨['P', 'M'], rfl⟩
  · cases h

lemma matchTimePart_suffix {r8 t rest : List Char} (h : matchTimePart r8 = some (t, rest)) :
    rest <:+ r8 := by
  unfold matchTimePart at h
  split at h
  · cases h
  · rename_i hh r9 h1
    split at h
    · cases h
    · rename_i r10 h2
      split at h
      · cases h
      · rename_i mm r11 h3
        split at h
        · cases h
        · rename_i r12 h4
          split at h
          · cases h
          · rename_i ss r13 h5
            split at h
            · cases h
            · rename_i p r15 h6
              split at h
              · cases h
              · rename_i r16 h7
                cases h
                exact ((((((expectChar_suffix h7).trans
                  (matchAmPm_suffix h6)).trans
                  (List.drop_suffix _ _)).trans
                  (digitsN_suffix h5)).trans
                  ((expectChar_suffix h4).trans
                  (digitsN_suffix h3))).trans
                  ((expectChar_suffix h2).trans
                  (digits12_suffix h1)))

lemma matchDatePart_suffix {cs d r7 : List Char} (h : matchDatePart cs = some (d, r7)) :
    r7 <:+ cs := by
  unfold matchDatePart at h
  split at h
  · cases h
  · rename_i r1 h1
    split at h
    · cases h
    · rename_i d1 r2 h2
      split at h
      · cases h
      · rename_i r3 h3
        split at h
        · cases h
        · rename_i d2 r4 h4
          split at h
          · cases h
          · rename_i r5 h5
            split at h
            · cases h
            · rename_i y4 r6 h6
              split at h
              · cases h
              · rename_i r7' h7
                cases h
                exact ((((((expectChar_suffix h7).trans
                  (digitsN_suffix h6)).trans
                  (expectChar_suffix h5)).trans
                  (digits12_suffix h4)).trans
                  ((expectChar_suffix h3).trans
                  (digits12_suffix h2))).trans
                  (expectChar_suffix h1))

lemma matchHdrHead_suffix {cs d t rest : List Char}
    (h : matchHdrHead cs = some (d, t, rest)) : rest <:+ cs := by
  unfold matchHdrHead at h
  split at h
  · cases h
  · rename_i d' r7 h1
    split at h
    · cases h
    · rename_i t' rest' h2
      cases h
      exact ((matchTimePart_suffix h2).trans
        (List.dropWhile_suffix _)).trans (matchDatePart_suffix h1)

lemma spacesTextAux_some {rest t : List Char} :
    ∀ {j : Nat}, spacesTextAux rest j = some t → t ≠ [] ∧ t <:+ rest := by
  intro j
  induction j with
  | zero =>
    intro h
    rw [spacesTextAux] at h
    split at h
    · cases h; exact ⟨‹_ ∧ _›.1, List.suffix_refl _⟩
    · cases h
  | succ j ih =>
    intro h
    rw [spacesTextAux] at h
    split at h
    · cases h; exact ⟨‹_ ∧ _›.1, List.drop_suffix _ _⟩
    · exact ih h

lemma matchSpacesText_some {rest t : List Char} (h : matchSpacesText rest = some t) :
    t ≠ [] ∧ t <:+ rest :=
  spacesTextAux_some h

lemma senderLoop_some : ∀ {rest acc s t : List Char},
    senderLoop acc rest = some (s, t) → t ≠ [] ∧ t <:+ rest := by
  intro rest
  induction rest with
  | nil => intro acc s t h; simp [senderLoop] at h
  | cons c cs ih =>
    intro acc s t h
    unfold senderLoop at h
    split at h
    · split at h
      · split at h
        · rename_i t' hms
          cases h
          obtain ⟨h1, h2⟩ := matchSpacesText_some hms
          exact ⟨h1, h2.trans ((List.suffix_cons _ _).trans (List.suffix_cons _ _))⟩
        · exact (ih h).imp (fun x => x) (fun h2 => h2.trans (List.suffix_cons _ _))
      · exact (ih h).imp (fun x => x) (fun h2 => h2.trans (List.suffix_cons _ _))
    · cases h

lemma wsSender_some {r s t : List Char} :
    ∀ {k : Nat}, wsSender r k = some (s, t) → t ≠ [] ∧ t <:+ r := by
  intro k
  induction k with
  | zero => intro h; exact senderLoop_some h
  | succ k ih =>
    intro h
    rw [wsSender] at h
    cases hsl : senderLoop [] (r.drop (k + 1)) with
    | some st =>
      obtain ⟨s', t'⟩ := st
      rw [hsl] at h
      cases h
      obtain ⟨h1, h2⟩ := senderLoop_some hsl
      exact ⟨h1, h2.trans (List.drop_suffix _ _)⟩
    | none =>
      rw [hsl] at h
      exact ih h

lemma matchHeader_text {cs : List Char} {cap : HeaderCapture}
    (h : matchHeader cs = some cap) : cap.text ≠ [] ∧ cap.text <:+ cs := by
  unfold matchHeader at h
  split at h
  · cases h
  · rename_i d t rest h1
    split at h
    · cases h
    · rename_i s txt h2
      cases h
      have h3 := wsSender_some (r := rest) h2
      exact ⟨h3.1, h3.2.trans (matchHdrHead_suffix h1)⟩

/-! ## The captured text always trims to something non-empty -/

lemma suffix_rev_head? {t s : List Char} (hsuf : t <:+ s) (hne : t ≠ []) :
    t.reverse.head? = s.reverse.head? := by
  obtain ⟨p, rfl⟩ := hsuf
  rw [List.reverse_append]
  cases htr : t.reverse with
  | nil => exact absurd (by simpa using congrArg List.reverse htr) hne
  | cons a r => simp [htr]

lemma cleanLine_suffix (l : List Char) : cleanLine l <:+ trim l :=
  List.dropWhile_suffix _

lemma trim_capText_ne_nil {l : List Char} {cap : HeaderCapture}
    (h : matchHeader (cleanLine l) = some cap) : trim cap.text ≠ [] := by
  obtain ⟨hne, hsuf⟩ := matchHeader_text h
  have hsuf2 : cap.text <:+ trim l := hsuf.trans (cleanLine_suffix l)
  have hrev := suffix_rev_head? hsuf2 hne
  cases hr : cap.text.reverse.head? with
  | none =>
    exfalso
    apply hne
    have : cap.text.reverse = [] := by
      cases hx : cap.text.reverse with
      | nil => rfl
      | cons a r => rw [hx] at hr; cases hr
    simpa using congrArg List.reverse this
  | some c =>
    have hcs : (trim (trim l)).reverse.head? = some c := by
      rw [trim_trim]; rw [← hrev, hr]
    have hws : isJsWs c = false := revHead?_trim hcs
    have hmem : c ∈ cap.text := by
      have : c ∈ cap.text.reverse := by
        cases hx : cap.text.reverse with
        | nil => rw [hx] at hr; cases hr
        | cons a r =>
          rw [hx] at hr
          simp at hr
          simp [hx, hr]
      simpa using this
    exact trim_ne_nil_of_mem hmem hws

/-! ## Encryption-notice facts -/

lemma toLower_eq_self_of_invWs {c : Char}
    (h : isInvisible c = true ∨ isJsWs c = true) : c.toLower = c := by
  unfold Char.toLower
  rw [if_neg]
  intro hcon
  obtain ⟨h1, h2⟩ := hcon
  rcases h with h | h
  · simp only [isInvisible, Bool.or_eq_true, Bool.and_eq_true, decide_eq_true_eq] at h
    omega
  · simp only [isJsWs, Bool.or_eq_true, Bool.and_eq_true, decide_eq_true_eq] at h
    omega

lemma containsCI_subset {pat t : List Char} (h : containsCI pat t = true) :
    ∀ c ∈ pat, c ∈ t.map Char.toLower := by
  intro c hc
  have hinf : pat <:+: t.map Char.toLower := of_decide_eq_true h
  exact hinf.sublist.subset hc

lemma warn_eq_false_of_invWs {t : List Char}
    (h : ∀ c ∈ t, isInvisible c = true ∨ isJsWs c = true) :
    isEncryptionWarning t = false := by
  have key : ∀ p0 : Char, (p0 = 'm' ∨ p0 = 'e' ∨ p0 = 'o') →
      p0 ∈ t.map Char.toLower → False := by
    intro p0 hp0 hpm
    obtain ⟨c, hc, hlow⟩ := List.mem_map.mp hpm
    rw [toLower_eq_self_of_invWs (h c hc)] at hlow
    subst hlow
    rcases h c hc with hx | hx <;> rcases hp0 with rfl | rfl | rfl
    · exact absurd hx (by decide)
    · exact absurd hx (by decide)
    · exact absurd hx (by decide)
    · exact absurd hx (by decide)
    · exact absurd hx (by decide)
    · exact absurd hx (by decide)
  cases hw : isEncryptionWarning t with
  | false => rfl
  | true =>
    exfalso
    unfold isEncryptionWarning at hw
    simp only [Bool.or_eq_true] at hw
    rcases hw with (h1 | h2) | h3
    · exact key 'm' (Or.inl rfl) (containsCI_subset h1 'm' (by decide))
    · exact key 'e' (Or.inr (Or.inl rfl)) (containsCI_subset h2 'e' (by decide))
    · exact key 'o' (Or.inr (Or.inr rfl)) (containsCI_subset h3 'o' (by decide))

/-! ## Facts about headerMessage -/

lemma matchHeader_nil : matchHeader ([] : List Char) = none := rfl

lemma cleanLine_nil_of_trim {l : List Char} (h : trim l = []) : cleanLine l = [] := by
  rw [cleanLine, h]
  rfl

lemma headerMessage_blank {l : List Char} (h : trim l = []) : headerMessage l = none := by
  rw [headerMessage, cleanLine_nil_of_trim h, matchHeader_nil]

lemma trim_ne_of_matchHeader {l : List Char} {cap : HeaderCapture}
    (h : matchHeader (cleanLine l) = some cap) : trim l ≠ [] := by
  intro hb
  rw [cleanLine_nil_of_trim hb, matchHeader_nil] at h
  cases h

lemma storedTextOf_trim (cap : HeaderCapture) : trim (storedTextOf cap) = storedTextOf cap := by
  rw [storedTextOf]
  split
  · exact trim_trim _
  · exact trim_trim _

lemma storedTextOf_ne_nil {l : List Char} {cap : HeaderCapture}
    (h : matchHeader (cleanLine l) = some cap) : storedTextOf cap ≠ [] := by
  rw [storedTextOf]
  split
  · exact trim_capText_ne_nil h
  · exact ‹¬cleanTextOf cap = []›

lemma storedTextOf_warn {cap : HeaderCapture}
    (hw : isEncryptionWarning (cleanTextOf cap) = false) :
    isEncryptionWarning (storedTextOf cap) = false := by
  rw [storedTextOf]
  split
  · rename_i hnil
    apply warn_eq_false_of_invWs
    intro c hc
    have hc2 : c ∈ cap.text := trim_subset hc
    by_cases hinv : isInvisible c = true
    · exact Or.inl hinv
    · right
      have hcf : c ∈ cap.text.filter (fun c => !isInvisible c) := by
        rw [List.mem_filter]
        exact ⟨hc2, by simp [hinv]⟩
      exact trim_eq_nil_iff.mp hnil c hcf
  · exact hw

lemma headerMessage_P {l : List Char} {m : ParsedMessage}
    (h : headerMessage l = some m) :
    PmOk m ∧ isEncryptionWarning m.text = false := by
  unfold headerMessage at h
  split at h
  · cases h
  · rename_i cap hcap
    split at h
    · cases h
    · rename_i d hd
      split at h
      · cases h
      · rename_i hw
        cases h
        have hw2 : isEncryptionWarning (cleanTextOf cap) = false := by
          simpa using hw
        exact ⟨⟨trim_trim _, storedTextOf_trim cap, storedTextOf_ne_nil hcap⟩,
          storedTextOf_warn hw2⟩

/-! ## Behaviour of processLine -/

lemma processLine_blank {line : List Char} {cur : Option ParsedMessage}
    {msgs : List ParsedMessage} (h : trim line = []) :
    processLine cur msgs line = (cur, msgs) := by
  simp only [processLine, if_pos h]

lemma processLine_goodHdr {line : List Char} {m : ParsedMessage}
    (h : headerMessage line = some m) (cur : Option ParsedMessage)
    (msgs : List ParsedMessage) :
    processLine cur msgs line = (some m, msgs ++ cur.toList) := by
  unfold headerMessage at h
  split at h
  · cases h
  · rename_i cap hcap
    split at h
    · cases h
    · rename_i d hd
      split at h
      · cases h
      · rename_i hw
        cases h
        simp only [processLine, if_neg (trim_ne_of_matchHeader hcap), hcap, hd,
          if_neg hw]

lemma processLine_cont {line : List Char} (hm : matchHeader (cleanLine line) = none)
    (m : ParsedMessage) (msgs : List ParsedMessage) :
    processLine (some m) msgs line =
      (some ⟨m.date, m.sender, contStep m.text line⟩, msgs) := by
  by_cases hb : trim line = []
  · rw [processLine_blank hb]
    have h1 : cleanLine line = [] := cleanLine_nil_of_trim hb
    simp [contStep, h1, trim_nil]
  · by_cases h2 : cleanLine line = []
    · simp only [processLine, if_neg hb, hm]
      simp [contStep, h2, trim_nil]
    · by_cases h3 : trim ((cleanLine line).filter (fun c => !isInvisible c)) = []
      · simp only [processLine, if_neg hb, hm]
        simp [contStep, h2, h3]
      · simp only [processLine, if_neg hb, hm]
        simp [contStep, h2, h3]

lemma processLine_idle {line : List Char} (hm : matchHeader (cleanLine line) = none)
    (msgs : List ParsedMessage) :
    processLine none msgs line = (none, msgs) := by
  by_cases hb : trim line = []
  · exact processLine_blank hb
  · simp [processLine, if_neg hb, hm]

/-! ## The loop on good-header transcripts -/

lemma runLines_nil (st : Option ParsedMessage × List ParsedMessage) :
    runLines st [] = st := rfl

lemma runLines_cons (st : Option ParsedMessage × List ParsedMessage)
    (l : List Char) (ls : List (List Char)) :
    runLines st (l :: ls) = runLines (processLine st.1 st.2 l) ls := rfl

lemma goodHdr_some {l : List Char} (h : goodHdr l = true) :
    ∃ m, headerMessage l = some m := by
  rw [goodHdr] at h
  exact Option.isSome_iff_exists.mp h

lemma runLines_good : ∀ {ls : List (List Char)},
    (∀ l ∈ ls, trim l = [] ∨ goodHdr l = true) →
    ∀ cur msgs, runLines (cur, msgs) ls =
      (ls.filterMap headerMessage).foldl stepG (cur, msgs) := by
  intro ls
  induction ls with
  | nil => intro _ cur msgs; rfl
  | cons l ls ih =>
    intro h cur msgs
    rcases h l (List.mem_cons_self _ _) with hb | hg
    · rw [runLines_cons, processLine_blank hb,
        List.filterMap_cons_none (headerMessage_blank hb)]
      exact ih (fun x hx => h x (List.mem_cons_of_mem _ hx)) cur msgs
    · obtain ⟨m, hm⟩ := goodHdr_some hg
      rw [runLines_cons]
      show runLines (processLine cur msgs l) ls = _
      rw [processLine_goodHdr hm cur msgs,
        List.filterMap_cons_some hm, List.foldl_cons]
      exact ih (fun x hx => h x (List.mem_cons_of_mem _ hx)) (some m) (msgs ++ cur.toList)

lemma foldl_stepG_append : ∀ (ms : List ParsedMessage) cur msgs,
    (ms.foldl stepG (cur, msgs)).2 ++ (ms.foldl stepG (cur, msgs)).1.toList =
      msgs ++ cur.toList ++ ms := by
  intro ms
  induction ms with
  | nil => intro cur msgs; simp
  | cons m ms ih =>
    intro cur msgs
    rw [List.foldl_cons]
    have h := ih (some m) (msgs ++ cur.toList)
    simp only [stepG] at h ⊢
    rw [h]
    simp

lemma foldl_stepG_fst : ∀ (ms : List ParsedMessage) cur msgs,
    (ms.foldl stepG (cur, msgs)).1 = ms.getLast?.or cur := by
  intro ms
  induction ms with
  | nil => intro cur msgs; rfl
  | cons m ms ih =>
    intro cur msgs
    rw [List.foldl_cons]
    have h := ih (some m) (msgs ++ cur.toList)
    simp only [stepG] at h ⊢
    rw [h]
    cases ms with
    | nil => rfl
    | cons m2 ms2 =>
      rw [List.getLast?_cons_cons]
      cases hg : (m2 :: ms2).getLast? with
      | none =>
        exfalso
        have := List.getLast?_eq_none_iff.mp hg
        cases this
      | some x => rfl

lemma flush_foldl_stepG {ms : List ParsedMessage}
    (hw : ∀ m ∈ ms, isEncryptionWarning m.text = false) :
    flushState (ms.foldl stepG (none, [])) = ms := by
  have h1 := foldl_stepG_fst ms none []
  have h2 := foldl_stepG_append ms none []
  cases hl : ms.getLast? with
  | none =>
    have hms : ms = [] := List.getLast?_eq_none_iff.mp hl
    subst hms
    rfl
  | some mk =>
    rw [hl] at h1
    have h1' : (ms.foldl stepG (none, [])).1 = some mk := by simpa using h1
    simp only [flushState, h1']
    rw [if_neg (by
      rw [(hw mk (List.mem_of_getLast?_eq_some hl))]
      simp)]
    rw [h1'] at h2
    simpa using h2

/-! ## The loop on continuation lines -/

lemma runLines_contOnly : ∀ {ls : List (List Char)},
    (∀ l ∈ ls, matchHeader (cleanLine l) = none) →
    ∀ (m : ParsedMessage) msgs, runLines (some m, msgs) ls =
      (some ⟨m.date, m.sender, ls.foldl contStep m.text⟩, msgs) := by
  intro ls
  induction ls with
  | nil => intro _ m msgs; rfl
  | cons l ls ih =>
    intro h m msgs
    rw [runLines_cons]
    show runLines (processLine (some m) msgs l) ls = _
    rw [processLine_cont (h l (List.mem_cons_self _ _)) m msgs]
    rw [ih (fun x hx => h x (List.mem_cons_of_mem _ hx)) _ msgs]
    rfl

/-! ## The stored-message invariant -/

lemma contStep_ok {m : ParsedMessage} (hm : PmOk m) (line : List Char) :
    PmOk ⟨m.date, m.sender, contStep m.text line⟩ := by
  obtain ⟨hs, ht, hne⟩ := hm
  rw [contStep]
  split
  · exact ⟨hs, ht, hne⟩
  · rename_i hcc
    refine ⟨hs, ?_, by simp⟩
    exact trim_append_mid '\n' ht hne (trim_trim _) hcc

lemma mem_toList_opt {m : ParsedMessage} {cur : Option ParsedMessage}
    (h : m ∈ cur.toList) : cur = some m := by
  cases cur with
  | none => simp at h
  | some c => simp at h; rw [h]

lemma processLine_invariant {cur : Option ParsedMessage} {msgs : List ParsedMessage}
    {line : List Char} (h1 : ∀ m ∈ msgs, PmOk m) (h2 : ∀ m, cur = some m → PmOk m) :
    (∀ m ∈ (processLine cur msgs line).2, PmOk m) ∧
    (∀ m, (processLine cur msgs line).1 = some m → PmOk m) := by
  have happ : ∀ m ∈ msgs ++ cur.toList, PmOk m := by
    intro m hm
    rcases List.mem_append.mp hm with hx | hx
    · exact h1 m hx
    · exact h2 m (mem_toList_opt hx)
  by_cases hb : trim line = []
  · rw [processLine_blank hb]; exact ⟨h1, h2⟩
  · cases hcap : matchHeader (cleanLine line) with
    | some cap =>
      cases hd : parseDate (dateTimeOf cap) with
      | some d =>
        by_cases hw : isEncryptionWarning (cleanTextOf cap) = true
        · have heq : processLine cur msgs line = (cur, msgs ++ cur.toList) := by
            simp only [processLine, if_neg hb, hcap, hd, if_pos hw]
          rw [heq]
          exact ⟨happ, h2⟩
        · have heq : processLine cur msgs line =
              (some ⟨d, trim cap.sender, storedTextOf cap⟩, msgs ++ cur.toList) := by
            simp only [processLine, if_neg hb, hcap, hd, if_neg hw]
          rw [heq]
          refine ⟨happ, ?_⟩
          intro m hm
          simp at hm
          rw [← hm]
          exact ⟨trim_trim _, storedTextOf_trim cap, storedTextOf_ne_nil hcap⟩
      | none =>
        have heq : processLine cur msgs line = (cur, msgs ++ cur.toList) := by
          simp only [processLine, if_neg hb, hcap, hd]
        rw [heq]
        exact ⟨happ, h2⟩
    | none =>
      cases cur with
      | none =>
        rw [processLine_idle hcap]
        exact ⟨h1, fun m hm => by cases hm⟩
      | some m0 =>
        rw [processLine_cont hcap]
        refine ⟨h1, ?_⟩
        intro m hm
        simp at hm
        rw [← hm]
        exact contStep_ok (h2 m0 rfl) line

lemma runLines_invariant : ∀ {ls : List (List Char)}
    {st : Option ParsedMessage × List ParsedMessage},
    (∀ m ∈ st.2, PmOk m) → (∀ m, st.1 = some m → PmOk m) →
    (∀ m ∈ (runLines st ls).2, PmOk m) ∧
    (∀ m, (runLines st ls).1 = some m → PmOk m) := by
  intro ls
  induction ls with
  | nil => intro st h1 h2; exact ⟨h1, h2⟩
  | cons l ls ih =>
    intro st h1 h2
    rw [runLines_cons]
    have hstep := @processLine_invariant st.1 st.2 l h1 h2
    exact ih hstep.1 hstep.2

lemma mem_flushState {m : ParsedMessage} {st : Option ParsedMessage × List ParsedMessage}
    (h : m ∈ flushState st) : m ∈ st.2 ∨ st.1 = some m := by
  rw [flushState] at h
  split at h
  · rename_i mk hmk
    split at h
    · exact Or.inl h
    · rcases List.mem_append.mp h with hx | hx
      · exact Or.inl hx
      · simp at hx
        rw [hmk, hx]
        exact Or.inr rfl
  · exact Or.inl h

/-! ## Full-parse characterizations -/

lemma parse_allGood {chat : List Char}
    (h : ∀ l ∈ splitLines chat, trim l = [] ∨ goodHdr l = true) :
    parseWhatsAppChat chat = (splitLines chat).filterMap headerMessage := by
  by_cases hb : trim chat = []
  · simp only [parseWhatsAppChat, if_pos hb]
    symm
    rw [List.filterMap_eq_nil_iff]
    intro l hl
    exact headerMessage_blank (all_blank_of_trim_nil hb l hl)
  · simp only [parseWhatsAppChat, if_neg hb]
    rw [runLines_good h none []]
    apply flush_foldl_stepG
    intro m hm
    obtain ⟨l, _, hml⟩ := List.mem_filterMap.mp hm
    exact (headerMessage_P hml).2

lemma filterMap_length_allGood : ∀ {ls : List (List Char)},
    (∀ l ∈ ls, trim l = [] ∨ goodHdr l = true) →
    (ls.filterMap headerMessage).length =
      (ls.filter (fun l => !decide (trim l = []))).length := by
  intro ls
  induction ls with
  | nil => intro _; rfl
  | cons l ls ih =>
    intro h
    rcases h l (List.mem_cons_self _ _) with hb | hg
    · rw [List.filterMap_cons_none (headerMessage_blank hb), List.filter_cons,
        if_neg (by simp [hb])]
      exact ih (fun x hx => h x (List.mem_cons_of_mem _ hx))
    · obtain ⟨m, hm⟩ := goodHdr_some hg
      have hnb : trim l ≠ [] := by
        intro hbb
        rw [headerMessage_blank hbb] at hm
        cases hm
      rw [List.filterMap_cons_some hm, List.filter_cons, if_pos (by simp [hnb])]
      simp only [List.length_cons]
      rw [ih (fun x hx => h x (List.mem_cons_of_mem _ hx))]

lemma headerMessage_nonblank {l : List Char} {m : ParsedMessage}
    (h : headerMessage l = some m) : trim l ≠ [] := by
  intro hb
  rw [headerMessage_blank hb] at h
  cases h

lemma trim_chat_ne {chat h : List Char} {rest : List (List Char)}
    (hsplit : splitLines chat = h :: rest) (hh : trim h ≠ []) : trim chat ≠ [] := by
  intro hb
  exact hh (all_blank_of_trim_nil hb h (by rw [hsplit]; exact List.mem_cons_self _ _))

/-! ## Header-shaped lines with nothing after the sender colon never match -/

lemma senderLoop_lastColon : ∀ (rest : List Char),
    (rest = [] ∨ ∃ v, rest = v ++ [':'] ∧ ':' ∉ v) →
    ∀ acc, senderLoop acc rest = none := by
  intro rest
  induction rest with
  | nil => intro _ acc; rfl
  | cons c cs ih =>
    intro hv acc
    rcases hv with h | ⟨v, hv, hnc⟩
    · exact absurd h (List.cons_ne_nil _ _)
    · unfold senderLoop
      cases v with
      | nil =>
        simp only [List.nil_append] at hv
        injection hv with hc hcs
        subst hc
        subst hcs
        rw [if_pos (by decide)]
        rfl
      | cons v0 v1 =>
        rw [List.cons_append] at hv
        injection hv with hc hcs
        subst hc
        subst hcs
        have hnc1 : ':' ∉ v1 := fun hx => hnc (List.mem_cons_of_mem _ hx)
        by_cases hdot : dotChar c = true
        · rw [if_pos hdot]
          cases v1 with
          | nil =>
            show senderLoop (acc ++ [c]) [':'] = none
            exact ih (Or.inr ⟨[], rfl, by simp⟩) (acc ++ [c])
          | cons v2 v3 =>
            have hv2 : v2 ≠ ':' := fun hx => hnc1 (hx ▸ List.mem_cons_self _ _)
            split
            · rename_i cs2 heq
              exact absurd heq (by simp [hv2])
            · exact ih (Or.inr ⟨v2 :: v3, rfl, hnc1⟩) (acc ++ [c])
        · rw [if_neg hdot]

lemma wsSender_lastColon {v : List Char} (hnc : ':' ∉ v) :
    ∀ k, wsSender (v ++ [':']) k = none := by
  intro k
  induction k with
  | zero => exact senderLoop_lastColon _ (Or.inr ⟨v, rfl, hnc⟩) []
  | succ k ih =>
    unfold wsSender
    have hdrop : senderLoop [] ((v ++ [':']).drop (k + 1)) = none := by
      by_cases hk : k + 1 ≤ v.length
      · rw [List.drop_append_of_le_length hk]
        exact senderLoop_lastColon _
          (Or.inr ⟨v.drop (k + 1), rfl, fun hx => hnc (List.drop_subset _ _ hx)⟩) []
      · rw [List.drop_eq_nil_of_le (by simp; omega)]
        exact senderLoop_lastColon _ (Or.inl rfl) []
    rw [hdrop]
    exact ih

lemma afterBracket_lastColon {v : List Char} (hnc : ':' ∉ v) :
    afterBracket (v ++ [':']) = none :=
  wsSender_lastColon hnc _

lemma matchHeader_lastColon {cs d t r' : List Char}
    (hhead : matchHdrHead cs = some (d, t, r' ++ [':'])) (hnc : ':' ∉ r') :
    matchHeader cs = none := by
  simp only [matchHeader, hhead, afterBracket_lastColon hnc]

/-! ## UTF-16 code units and the sender order -/

lemma utf16_cons (c : Char) (s : List Char) :
    utf16 (c :: s) = utf16Char c ++ utf16 s := by
  simp [utf16]

lemma utf16_nil : utf16 [] = [] := rfl

lemma utf16Char_ne_nil (c : Char) : utf16Char c ≠ [] := by
  rw [utf16Char]
  split <;> simp

lemma charValid (c : Char) :
    c.toNat < 0xD800 ∨ (0xDFFF < c.toNat ∧ c.toNat < 0x110000) := c.valid

lemma charToNat_inj {c d : Char} (h : c.toNat = d.toNat) : c = d :=
  Char.ext (UInt32.toNat.inj h)

lemma utf16_inj : ∀ {s t : List Char}, utf16 s = utf16 t → s = t := by
  intro s
  induction s with
  | nil =>
    intro t h
    cases t with
    | nil => rfl
    | cons d t =>
      exfalso
      rw [utf16_cons, utf16_nil] at h
      exact utf16Char_ne_nil d (List.append_eq_nil.mp h.symm).1
  | cons c s ih =>
    intro t h
    cases t with
    | nil =>
      exfalso
      rw [utf16_cons, utf16_nil] at h
      exact utf16Char_ne_nil c (List.append_eq_nil.mp h).1
    | cons d t =>
      rw [utf16_cons, utf16_cons] at h
      by_cases hc : c.toNat < 0x10000 <;> by_cases hd : d.toNat < 0x10000
      · rw [utf16Char, if_pos hc, utf16Char, if_pos hd] at h
        simp only [List.cons_append, List.nil_append, List.cons.injEq] at h
        rw [charToNat_inj h.1, ih h.2]
      · exfalso
        rw [utf16Char, if_pos hc, utf16Char, if_neg hd] at h
        simp only [List.cons_append, List.nil_append, List.cons.injEq] at h
        have hdv := charValid d
        have hcv := charValid c
        have h1 := h.1
        omega
      · exfalso
        rw [utf16Char, if_neg hc, utf16Char, if_pos hd] at h
        simp only [List.cons_append, List.nil_append, List.cons.injEq] at h
        have hdv := charValid d
        have hcv := charValid c
        have h1 := h.1
        omega
      · rw [utf16Char, if_neg hc, utf16Char, if_neg hd] at h
        simp only [List.cons_append, List.nil_append, List.cons.injEq] at h
        obtain ⟨h1, h2, h3⟩ := h
        have : c.toNat = d.toNat := by omega
        rw [charToNat_inj this, ih h3]

lemma lexLe_cons {x y : Nat} {as bs : List Nat} :
    lexLe (x :: as) (y :: bs) = true ↔ x < y ∨ (x = y ∧ lexLe as bs = true) := by
  rw [lexLe]
  split
  · rename_i hlt
    simp [hlt]
  · split
    · rename_i hlt heq
      simp [hlt, heq]
    · rename_i hlt heq
      simp [hlt, heq]

lemma lexLe_total : ∀ a b : List Nat, lexLe a b = true ∨ lexLe b a = true
  | [], _ => Or.inl rfl
  | _ :: _, [] => Or.inr rfl
  | x :: as, y :: bs => by
    rcases Nat.lt_trichotomy x y with h | h | h
    · left; rw [lexLe_cons]; exact Or.inl h
    · subst h
      rcases lexLe_total as bs with h2 | h2
      · left; rw [lexLe_cons]; exact Or.inr ⟨rfl, h2⟩
      · right; rw [lexLe_cons]; exact Or.inr ⟨rfl, h2⟩
    · right; rw [lexLe_cons]; exact Or.inl h

lemma lexLe_trans : ∀ a b c : List Nat,
    lexLe a b = true → lexLe b c = true → lexLe a c = true
  | [], _, _, _, _ => rfl
  | _ :: _, [], _, hab, _ => by simp [lexLe] at hab
  | _ :: _, _ :: _, [], _, hbc => by simp [lexLe] at hbc
  | x :: as, y :: bs, z :: cs, hab, hbc => by
    rw [lexLe_cons] at hab hbc ⊢
    rcases hab with h1 | ⟨rfl, h1⟩
    · rcases hbc with h2 | ⟨rfl, h2⟩
      · exact Or.inl (h1.trans h2)
      · exact Or.inl h1
    · rcases hbc with h2 | ⟨rfl, h2⟩
      · exact Or.inl h2
      · exact Or.inr ⟨rfl, lexLe_trans as bs cs h1 h2⟩

lemma lexLe_antisymm : ∀ a b : List Nat,
    lexLe a b = true → lexLe b a = true → a = b
  | [], [], _, _ => rfl
  | [], _ :: _, _, hba => by simp [lexLe] at hba
  | _ :: _, [], hab, _ => by simp [lexLe] at hab
  | x :: as, y :: bs, hab, hba => by
    rw [lexLe_cons] at hab hba
    have hxy : x = y := by
      rcases hab with h1 | ⟨h1, _⟩ <;> rcases hba with h2 | ⟨h2, _⟩ <;> omega
    subst hxy
    have h1 : lexLe as bs = true := by
      rcases hab with h | ⟨_, h⟩
      · omega
      · exact h
    have h2 : lexLe bs as = true := by
      rcases hba with h | ⟨_, h⟩
      · omega
      · exact h
    rw [lexLe_antisymm as bs h1 h2]

lemma senderLe_total (a b : List Char) : senderLe a b = true ∨ senderLe b a = true :=
  lexLe_total (utf16 a) (utf16 b)

lemma senderLe_trans {a b c : List Char} (h1 : senderLe a b = true)
    (h2 : senderLe b c = true) : senderLe a c = true :=
  lexLe_trans (utf16 a) (utf16 b) (utf16 c) h1 h2

lemma senderLe_antisymm {a b : List Char} (h1 : senderLe a b = true)
    (h2 : senderLe b a = true) : a = b :=
  utf16_inj (lexLe_antisymm (utf16 a) (utf16 b) h1 h2)

/-! ## Deduplication facts -/

lemma mem_dedupFirst_aux : ∀ (l : List (List Char)) (acc : List (List Char))
    (x : List Char),
    (x ∈ l.foldl (fun acc s => if s ∈ acc then acc else acc ++ [s]) acc) ↔
      x ∈ acc ∨ x ∈ l := by
  intro l
  induction l with
  | nil => intro acc x; simp
  | cons s l ih =>
    intro acc x
    rw [List.foldl_cons]
    by_cases hs : s ∈ acc
    · rw [if_pos hs, ih]
      constructor
      · intro h
        rcases h with h | h
        · exact Or.inl h
        · exact Or.inr (List.mem_cons_of_mem _ h)
      · intro h
        rcases h with h | h
        · exact Or.inl h
        · rcases List.mem_cons.mp h with h2 | h2
          · exact Or.inl (h2 ▸ hs)
          · exact Or.inr h2
    · rw [if_neg hs, ih]
      constructor
      · intro h
        rcases h with h | h
        · rcases List.mem_append.mp h with h2 | h2
          · exact Or.inl h2
          · simp at h2
            exact Or.inr (h2 ▸ List.mem_cons_self _ _)
        · exact Or.inr (List.mem_cons_of_mem _ h)
      · intro h
        rcases h with h | h
        · exact Or.inl (List.mem_append.mpr (Or.inl h))
        · rcases List.mem_cons.mp h with h2 | h2
          · exact Or.inl (List.mem_append.mpr (Or.inr (by simp [h2])))
          · exact Or.inr h2

lemma mem_dedupFirst {l : List (List Char)} {x : List Char} :
    x ∈ dedupFirst l ↔ x ∈ l := by
  rw [dedupFirst, mem_dedupFirst_aux]
  simp

lemma nodup_dedupFirst_aux : ∀ (l : List (List Char)) (acc : List (List Char)),
    acc.Nodup →
    (l.foldl (fun acc s => if s ∈ acc then acc else acc ++ [s]) acc).Nodup := by
  intro l
  induction l with
  | nil => intro acc h; exact h
  | cons s l ih =>
    intro acc h
    rw [List.foldl_cons]
    by_cases hs : s ∈ acc
    · rw [if_pos hs]; exact ih acc h
    · rw [if_neg hs]
      apply ih
      rw [List.nodup_append]
      exact ⟨h, List.nodup_singleton s, by simpa using hs⟩

lemma nodup_dedupFirst (l : List (List Char)) : (dedupFirst l).Nodup :=
  nodup_dedupFirst_aux l [] List.nodup_nil

/-! ## Facts about extractSenders -/

lemma extractSenders_perm_dedup (msgs : List ParsedMessage) :
    (extractSenders msgs).Perm (dedupFirst (msgs.map (fun m => m.sender))) :=
  List.perm_insertionSort _ _

lemma mem_extractSenders {msgs : List ParsedMessage} {s : List Char} :
    s ∈ extractSenders msgs ↔ s ∈ msgs.map (fun m => m.sender) := by
  rw [(extractSenders_perm_dedup msgs).mem_iff, mem_dedupFirst]

lemma nodup_extractSenders (msgs : List ParsedMessage) : (extractSenders msgs).Nodup :=
  ((extractSenders_perm_dedup msgs).nodup_iff).mpr (nodup_dedupFirst _)

lemma sorted_extractSenders (msgs : List ParsedMessage) :
    List.Pairwise (fun a b => senderLe a b = true) (extractSenders msgs) := by
  haveI : IsTotal (List Char) (fun a b => senderLe a b = true) := ⟨senderLe_total⟩
  haveI : IsTrans (List Char) (fun a b => senderLe a b = true) :=
    ⟨fun _ _ _ => senderLe_trans⟩
  exact List.sorted_insertionSort _ _

lemma extractSenders_perm_inv {msgs msgs' : List ParsedMessage}
    (h : msgs.Perm msgs') : extractSenders msgs = extractSenders msgs' := by
  haveI : IsAntisymm (List Char) (fun a b => senderLe a b = true) :=
    ⟨fun _ _ => senderLe_antisymm⟩
  have hd : (dedupFirst (msgs.map (fun m => m.sender))).Perm
      (dedupFirst (msgs'.map (fun m => m.sender))) := by
    apply (List.perm_ext_iff_of_nodup (nodup_dedupFirst _) (nodup_dedupFirst _)).mpr
    intro a
    rw [mem_dedupFirst, mem_dedupFirst]
    exact (h.map _).mem_iff
  apply List.eq_of_perm_of_sorted
    (((extractSenders_perm_dedup msgs).trans hd).trans
      (extractSenders_perm_dedup msgs').symm)
    (sorted_extractSenders msgs) (sorted_extractSenders msgs')

/-! ## The archive extractor selects the head of the filtered entries -/

lemma find?_eq_filter_head (p : ZipEntry → Bool) :
    ∀ l : List ZipEntry, l.find? p = (l.filter p).head? := by
  intro l
  induction l with
  | nil => rfl
  | cons e l ih =>
    by_cases he : p e = true
    · rw [List.find?_cons_of_pos l he, List.filter_cons_of_pos he]
      rfl
    · rw [List.find?_cons_of_neg l he, List.filter_cons_of_neg he, ih]

lemma extractTxtFromZip_eq_find (entries : List ZipEntry) :
    extractTxtFromZip entries =
      match entries.find? (fun e => endsWithTxt e.name && !e.dir) with
      | none => Except.error ZipError.noTextEntryFound
      | some e =>
        if e.content.length = 0 then Except.error ZipError.emptyExtractedContent
        else Except.ok (e.content, e.name) := by
  rw [find?_eq_filter_head]
  cases hf : entries.filter (fun e => endsWithTxt e.name && !e.dir) with
  | nil => simp only [extractTxtFromZip, hf, List.head?_nil]
  | cons e es => simp only [extractTxtFromZip, hf, List.head?_cons]

/-! ## Claims -/

/-- Claim C1.  The claim states that a header-like line whose date/time
tokens fail to resolve leaves the Building/Idle state and the emitted
sequence unchanged.  On the code this fails: the line `[01/02/2024,
8:00:16  AM] Bob: Hello` (two spaces before `AM`) matches the header
grammar but `parseDate` rejects it; by then the open message has already
been pushed (line 63) and is not cleared, so it is emitted a second time
at end of input.  This theorem evaluates the parser at that failing input:
Alice's message is duplicated instead of the sequence being left
unchanged. -/
theorem claim_C1_invalid_date_reemits :
    parseWhatsAppChat
        ("[01/02/2024, 8:00:16 AM] Alice: Hi\n[01/02/2024, 8:00:16  AM] Bob: Hello").data =
      [⟨⟨2024, 1, 1, 8, 0, 16⟩, "Alice".data, "Hi".data⟩,
       ⟨⟨2024, 1, 1, 8, 0, 16⟩, "Alice".data, "Hi".data⟩] ∧
    (matchHeader (cleanLine ("[01/02/2024, 8:00:16  AM] Bob: Hello").data)).isSome = true ∧
    parseDate ("01/02/2024 8:00:16  AM").data = none := by
  decide

/-- Claim C2.  The claim states that no emitted message's final text
matches a notice pattern (checked both at header close and at flush) and
that a suppressed notice does not change the other emitted messages.  On
the code both parts fail.  First transcript: the suppressed notice leaves
the previous message as the current message, so Alice's message is
emitted twice.  Second transcript: a message whose text becomes a notice
through a continuation line is pushed unchecked when the next header
closes it, so a notice-matching text is emitted. -/
theorem claim_C2_notice_suppression_reemits :
    parseWhatsAppChat
        ("[01/02/2024, 8:00:16 AM] Alice: Hi\n[01/02/2024, 8:01:00 AM] S: Messages and calls are end-to-end encrypted. Tap to learn more.\n[01/02/2024, 8:02:00 AM] Bob: Hello").data =
      [⟨⟨2024, 1, 1, 8, 0, 16⟩, "Alice".data, "Hi".data⟩,
       ⟨⟨2024, 1, 1, 8, 0, 16⟩, "Alice".data, "Hi".data⟩,
       ⟨⟨2024, 1, 1, 8, 2, 0⟩, "Bob".data, "Hello".data⟩] ∧
    isEncryptionWarning
      ("Messages and calls are end-to-end encrypted. Tap to learn more.").data = true ∧
    parseWhatsAppChat
        ("[01/02/2024, 8:00:16 AM] Alice: Messages and calls\nare end-to-end encrypted\n[01/02/2024, 8:02:00 AM] Bob: Hi").data =
      [⟨⟨2024, 1, 1, 8, 0, 16⟩, "Alice".data,
        ("Messages and calls\nare end-to-end encrypted").data⟩,
       ⟨⟨2024, 1, 1, 8, 2, 0⟩, "Bob".data, "Hi".data⟩] ∧
    isEncryptionWarning ("Messages and calls\nare end-to-end encrypted").data = true := by
  decide

/-- Claim C3, counterexample.  The claim states that the sender field of
an emitted message contains no invisible directional marks.  The sender
`A‎B` (with an interior left-to-right mark U+200E) is stored with the
mark intact: the code only trims the sender capture (line 85) and never
strips marks from it. -/
theorem claim_C3_counterexample :
    (parseWhatsAppChat ("[01/02/2024, 8:00:16 AM] A‎B: Hi").data).map
        (fun m => m.sender) = [("A‎B").data] ∧
    isInvisible '‎' = true ∧ '‎' ∈ ("A‎B").data := by
  decide

/-- Claim C3, amended.  What the code does guarantee for every emitted
message: sender and text are trimmed of leading and trailing (JS)
whitespace, and the text is never empty.  Invisible marks, however, can
survive inside the sender, and inside the text when the header capture
consisted only of marks and whitespace. -/
theorem claim_C3_trimmed (chat : List Char) (m : ParsedMessage)
    (hm : m ∈ parseWhatsAppChat chat) :
    trim m.sender = m.sender ∧ trim m.text = m.text ∧ m.text ≠ [] := by
  by_cases hb : trim chat = []
  · simp only [parseWhatsAppChat, if_pos hb] at hm
    cases hm
  · simp only [parseWhatsAppChat, if_neg hb] at hm
    have hinv := @runLines_invariant (splitLines chat) (none, [])
      (by intro m' hm'; cases hm') (by intro m' hm'; cases hm')
    rcases mem_flushState hm with hx | hx
    · exact hinv.1 m hx
    · exact hinv.2 m hx

/-- Witness for claim C3's amended theorem at a concrete transcript. -/
theorem claim_C3_trimmed_witness :
    (⟨⟨2024, 1, 1, 8, 0, 16⟩, "Alice".data, "Hi".data⟩ : ParsedMessage) ∈
      parseWhatsAppChat ("[01/02/2024, 8:00:16 AM] Alice: Hi").data ∧
    (trim "Alice".data = "Alice".data ∧ trim "Hi".data = "Hi".data ∧
      "Hi".data ≠ []) :=
  ⟨by decide,
   claim_C3_trimmed ("[01/02/2024, 8:00:16 AM] Alice: Hi").data
     ⟨⟨2024, 1, 1, 8, 0, 16⟩, "Alice".data, "Hi".data⟩ (by decide)⟩

/-- Claim C4, counterexample.  The claim says the `.txt` suffix is matched
case-insensitively.  The code uses `fileName.endsWith('.txt')`, which is
case-sensitive: an archive whose only entry is `CHAT.TXT` (which the
spec-modelled case-insensitive extractor accepts) makes the code fail
with the no-text-entry error. -/
theorem claim_C4_counterexample :
    extractTxtFromZipSpec [⟨("CHAT.TXT").data, false, "hello".data⟩] =
      Except.ok ("hello".data, ("CHAT.TXT").data) ∧
    extractTxtFromZip [⟨("CHAT.TXT").data, false, "hello".data⟩] =
      Except.error ZipError.noTextEntryFound :=
  ⟨rfl, rfl⟩

/-- Claim C4, amended.  `extractTxtFromZip` selects the first entry whose
name ends with `.txt` matched case-sensitively, skipping directory
entries; it fails with `noTextEntryFound` when no such entry exists and
with `emptyExtractedContent` when the decoded content has zero length. -/
theorem claim_C4_case_sensitive (entries : List ZipEntry) :
    extractTxtFromZip entries =
      match entries.find? (fun e => endsWithTxt e.name && !e.dir) with
      | none => Except.error ZipError.noTextEntryFound
      | some e =>
        if e.content.length = 0 then Except.error ZipError.emptyExtractedContent
        else Except.ok (e.content, e.name) :=
  extractTxtFromZip_eq_find entries

/-- Claim C5.  On a transcript in which every non-blank line is a good
header line (the grammar matches, the date resolves, the cleaned text is
not a notice), the parser emits exactly one message per header line, in
transcript order: the output is the `filterMap` of the per-line message
over the lines, and its length is the number of non-blank lines. -/
theorem claim_C5_good_transcripts (chat : List Char)
    (h : ((splitLines chat).all (fun l => decide (trim l = []) || goodHdr l)) = true) :
    parseWhatsAppChat chat = (splitLines chat).filterMap headerMessage ∧
    (parseWhatsAppChat chat).length =
      ((splitLines chat).filter (fun l => !decide (trim l = []))).length := by
  have h' : ∀ l ∈ splitLines chat, trim l = [] ∨ goodHdr l = true := by
    intro l hl
    rcases Bool.or_eq_true_iff.mp (List.all_eq_true.mp h l hl) with hx | hx
    · exact Or.inl (of_decide_eq_true hx)
    · exact Or.inr hx
  have he := parse_allGood h'
  refine ⟨he, ?_⟩
  rw [he, filterMap_length_allGood h']

/-- Witness for claim C5 at a two-header transcript. -/
theorem claim_C5_witness :
    parseWhatsAppChat
        ("[01/02/2024, 8:00:16 AM] Alice: Hi\n[01/02/2024, 8:01:00 AM] Bob: Hello").data =
      (splitLines
        ("[01/02/2024, 8:00:16 AM] Alice: Hi\n[01/02/2024, 8:01:00 AM] Bob: Hello").data).filterMap
        headerMessage ∧
    (parseWhatsAppChat
        ("[01/02/2024, 8:00:16 AM] Alice: Hi\n[01/02/2024, 8:01:00 AM] Bob: Hello").data).length =
      ((splitLines
        ("[01/02/2024, 8:00:16 AM] Alice: Hi\n[01/02/2024, 8:01:00 AM] Bob: Hello").data).filter
        (fun l => !decide (trim l = []))).length :=
  claim_C5_good_transcripts _ (by decide)

/-- Claim C6, counterexample.  The claim states that the emitted text is
the header capture followed by each continuation line verbatim, joined by
newlines.  The code normalizes each continuation line first: for the
continuation line ` x` the stored text is `Hi\nx`, not the claimed
`Hi\n x`. -/
theorem claim_C6_counterexample :
    (parseWhatsAppChat ("[01/02/2024, 8:00:16 AM] Alice: Hi\n x").data).map
        (fun m => m.text) = [("Hi\nx").data] ∧
    ("Hi\nx").data ≠ ("Hi\n x").data := by
  decide

/-- Claim C6, amended.  For a good header line followed by non-header,
non-blank lines, exactly one message is emitted and its text is the
stored header text followed by the normalization (invisible marks
stripped, then trimmed) of each continuation line that stays non-empty,
in order, joined by single newlines (`contStep`), provided the assembled
text is not itself a notice. -/
theorem claim_C6_continuations (chat h : List Char) (rest : List (List Char))
    (m0 : ParsedMessage) (hsplit : splitLines chat = h :: rest)
    (hm : headerMessage h = some m0) (_hne : rest ≠ [])
    (hrest : rest.all
      (fun l => !decide (trim l = []) && (matchHeader (cleanLine l)).isNone) = true)
    (hwarn : isEncryptionWarning (rest.foldl contStep m0.text) = false) :
    parseWhatsAppChat chat = [⟨m0.date, m0.sender, rest.foldl contStep m0.text⟩] := by
  have hcne : trim chat ≠ [] := trim_chat_ne hsplit (headerMessage_nonblank hm)
  have hAll : ∀ l ∈ rest, matchHeader (cleanLine l) = none := by
    intro l hl
    have := Bool.and_eq_true_iff.mp (List.all_eq_true.mp hrest l hl)
    exact Option.isNone_iff_eq_none.mp this.2
  simp only [parseWhatsAppChat, if_neg hcne, hsplit]
  rw [runLines_cons]
  show flushState (runLines (processLine none [] h) rest) = _
  rw [processLine_goodHdr hm none []]
  show flushState (runLines (some m0, []) rest) = _
  rw [runLines_contOnly hAll m0 []]
  simp only [flushState, hwarn]
  simp

/-- Witness for claim C6's amended theorem at a concrete transcript. -/
theorem claim_C6_continuations_witness :
    parseWhatsAppChat ("[01/02/2024, 8:00:16 AM] Alice: Hi\nthere\nfriend").data =
      [⟨⟨2024, 1, 1, 8, 0, 16⟩, "Alice".data, ("Hi\nthere\nfriend").data⟩] := by
  have h := claim_C6_continuations
    ("[01/02/2024, 8:00:16 AM] Alice: Hi\nthere\nfriend").data
    ("[01/02/2024, 8:00:16 AM] Alice: Hi").data
    ["there".data, "friend".data]
    ⟨⟨2024, 1, 1, 8, 0, 16⟩, "Alice".data, "Hi".data⟩
    (by decide) (by decide) (by decide) (by decide) (by decide)
  rw [h]
  decide

/-- Claim C7.  The DateTime resolver uses day and year literally, shifts
the 1-based month down by one, and resolves the 12-hour clock: hour 12
stays 12 under PM, becomes 0 under AM, and any other hour gains 12 under
PM and is kept under AM; in particular `12:00:00 AM` resolves to hour 0,
`12:00:00 PM` to hour 12, and `1:05:30 PM` to hour 13. -/
theorem claim_C7_hour_mapping :
    (∀ d m y h mi s : Nat,
      resolveDateTime d m y h mi s (some Period.PM) =
        ⟨(y : Int), (m : Int) - 1, (d : Int),
          if h = 12 then 12 else (h : Int) + 12, (mi : Int), (s : Int)⟩ ∧
      resolveDateTime d m y h mi s (some Period.AM) =
        ⟨(y : Int), (m : Int) - 1, (d : Int),
          if h = 12 then 0 else (h : Int), (mi : Int), (s : Int)⟩) ∧
    parseDate ("1/2/2024 12:00:00 AM").data = some ⟨2024, 1, 1, 0, 0, 0⟩ ∧
    parseDate ("1/2/2024 12:00:00 PM").data = some ⟨2024, 1, 1, 12, 0, 0⟩ ∧
    parseDate ("1/2/2024 1:05:30 PM").data = some ⟨2024, 1, 1, 13, 5, 30⟩ := by
  refine ⟨fun d m y h mi s => ⟨?_, ?_⟩, by decide, by decide, by decide⟩
  · simp only [resolveDateTime]
    by_cases hh : h = 12 <;> simp [hh]
  · simp only [resolveDateTime]
    by_cases hh : h = 12
    · simp [hh]
    · simp [hh]
      omega

/-- Claim C8.  `extractSenders` returns exactly the distinct senders of
the message sequence, without duplicates, sorted by the UTF-16
code-unit order (the locale-independent default string sort), and the
result is invariant under permuting the messages; senders appearing as
Bob then Alice yield the directory `[Alice, Bob]`. -/
theorem claim_C8_sender_directory :
    (∀ (msgs : List ParsedMessage) (s : List Char),
      s ∈ extractSenders msgs ↔ s ∈ msgs.map (fun m => m.sender)) ∧
    (∀ msgs : List ParsedMessage, (extractSenders msgs).Nodup) ∧
    (∀ msgs : List ParsedMessage,
      List.Pairwise (fun a b => senderLe a b = true) (extractSenders msgs)) ∧
    (∀ msgs msgs' : List ParsedMessage,
      msgs.Perm msgs' → extractSenders msgs = extractSenders msgs') ∧
    extractSenders
        [⟨⟨2024, 1, 1, 8, 0, 0⟩, "Bob".data, "x".data⟩,
         ⟨⟨2024, 1, 1, 8, 1, 0⟩, "Alice".data, "y".data⟩] =
      ["Alice".data, "Bob".data] :=
  ⟨fun _ _ => mem_extractSenders, nodup_extractSenders, sorted_extractSenders,
   fun _ _ => extractSenders_perm_inv, by decide⟩

/-- Witness for claim C8's permutation-invariance part at concrete
messages. -/
theorem claim_C8_sender_directory_witness :
    ([⟨⟨2024, 1, 1, 8, 0, 0⟩, "Bob".data, "x".data⟩,
      ⟨⟨2024, 1, 1, 8, 1, 0⟩, "Alice".data, "y".data⟩] :
        List ParsedMessage).Perm
      [⟨⟨2024, 1, 1, 8, 1, 0⟩, "Alice".data, "y".data⟩,
       ⟨⟨2024, 1, 1, 8, 0, 0⟩, "Bob".data, "x".data⟩] ∧
    extractSenders
        [⟨⟨2024, 1, 1, 8, 0, 0⟩, "Bob".data, "x".data⟩,
         ⟨⟨2024, 1, 1, 8, 1, 0⟩, "Alice".data, "y".data⟩] =
      extractSenders
        [⟨⟨2024, 1, 1, 8, 1, 0⟩, "Alice".data, "y".data⟩,
         ⟨⟨2024, 1, 1, 8, 0, 0⟩, "Bob".data, "x".data⟩] :=
  ⟨by decide, claim_C8_sender_directory.2.2.2.1 _ _ (by decide)⟩

/-- Claim C9.  The parser is a total function in this embedding (its only
internal failure, date resolution, is modelled by `Option` and handled at
its only call site, mirroring the `try/catch` of lines 70–94); for an
empty or whitespace-only transcript it returns the empty message
sequence. -/
theorem claim_C9_empty_input (chat : List Char) (h : trim chat = []) :
    parseWhatsAppChat chat = [] := by
  simp only [parseWhatsAppChat, if_pos h]

/-- Witness for claim C9 at a whitespace-only transcript. -/
theorem claim_C9_empty_input_witness :
    trim ("  \n \t ").data = [] ∧ parseWhatsAppChat ("  \n \t ").data = [] :=
  ⟨by decide, claim_C9_empty_input _ (by decide)⟩

/-- Claim C10.  A header-shaped line with no text after the sender's
colon never matches the header grammar: a successful match always
captures a non-empty text field; a line whose post-bracket part is a
colon-free span followed by a final colon does not match; and such a
non-matching line is appended as a continuation in the Building state and
discarded in the Idle state. -/
theorem claim_C10_empty_text_header :
    (∀ (cs : List Char) (cap : HeaderCapture),
      matchHeader cs = some cap → cap.text ≠ []) ∧
    (∀ cs d t r' : List Char,
      matchHdrHead cs = some (d, t, r' ++ [':']) → ':' ∉ r' →
      matchHeader cs = none) ∧
    (∀ (line : List Char) (m : ParsedMessage) (msgs : List ParsedMessage),
      matchHeader (cleanLine line) = none →
      trim ((cleanLine line).filter (fun c => !isInvisible c)) ≠ [] →
      processLine (some m) msgs line =
        (some ⟨m.date, m.sender,
          m.text ++ '\n' :: trim ((cleanLine line).filter (fun c => !isInvisible c))⟩,
         msgs)) ∧
    (∀ (line : List Char) (msgs : List ParsedMessage),
      matchHeader (cleanLine line) = none →
      processLine none msgs line = (none, msgs)) := by
  refine ⟨fun cs cap h => (matchHeader_text h).1,
    fun cs d t r' hh hnc => matchHeader_lastColon hh hnc, ?_, ?_⟩
  · intro line m msgs hmh hcc
    rw [processLine_cont hmh m msgs]
    simp only [contStep, if_neg hcc]
  · intro line msgs hmh
    exact processLine_idle hmh msgs

/-- Witness for claim C10 at a concrete text-less header line and a
concrete continuation line. -/
theorem claim_C10_empty_text_header_witness :
    matchHeader (("[01/02/2024, 8:00:16 AM] Alice:").data) = none ∧
    processLine (some ⟨⟨2024, 1, 1, 8, 0, 16⟩, "Alice".data, "Hi".data⟩) []
        ("world").data =
      (some ⟨⟨2024, 1, 1, 8, 0, 16⟩, "Alice".data,
        "Hi".data ++ '\n' ::
          trim ((cleanLine ("world").data).filter (fun c => !isInvisible c))⟩, []) ∧
    processLine none [] ("world").data = (none, []) :=
  ⟨claim_C10_empty_text_header.2.1 (("[01/02/2024, 8:00:16 AM] Alice:").data)
      ("01/02/2024").data ("8:00:16 AM").data (" Alice").data
      (by decide) (by decide),
   claim_C10_empty_text_header.2.2.1 _ _ _ (by decide) (by decide),
   claim_C10_empty_text_header.2.2.2 _ _ (by decide)⟩

end Mimic
